import Mathlib

set_option linter.unusedVariables false

/-!
Verification of the autocoder work-item store, claim protocol and line
protocol codec against a shallow embedding of the source.

Part 1: the feature table (src/api/database.py) and the MCP claim-protocol
operations (src/mcp_server/feature_mcp.py).  SQLAlchemy rows become Lean
structures, the table becomes a `List Feature`, a query `.filter(p).order_by
(priority.asc, id.asc).first()` becomes `selectMin (db.filter p)`, and a
committed ORM mutation of a fetched row becomes `updateById`.  Column values
follow the schema: `assigned_agent_id` is a nullable string, so Python
truthiness on it is `pyTruthy`.
-/

/-- A row of the `features` table (class `Feature`, src/api/database.py). -/
structure Feature where
  id : Nat
  priority : Int
  type : String
  category : String
  name : String
  description : String
  steps : List String
  passes : Bool
  in_progress : Bool
  label : Option String
  assigned_agent_id : Option String
deriving DecidableEq, Repr

/-- Strict ordering used by `order_by(Feature.priority.asc(), Feature.id.asc())`. -/
def keyLt (f g : Feature) : Prop :=
  f.priority < g.priority ∨ (f.priority = g.priority ∧ f.id < g.id)

instance (f g : Feature) : Decidable (keyLt f g) := by
  unfold keyLt; infer_instance

/-- Reflexive ordering on the same sort key. -/
def keyLe (f g : Feature) : Prop :=
  f.priority < g.priority ∨ (f.priority = g.priority ∧ f.id ≤ g.id)

instance (f g : Feature) : Decidable (keyLe f g) := by
  unfold keyLe; infer_instance

/-- Model of `.order_by(priority.asc, id.asc).first()`: the least row of the list
under `keyLt` (first one in list order among equals). -/
def selectMin : List Feature → Option Feature
  | [] => none
  | f :: rest =>
    match selectMin rest with
    | none => some f
    | some g => if keyLt g f then some g else some f

/-- Python truthiness of a nullable string column (`None` and `""` are falsy). -/
def pyTruthy : Option String → Bool
  | none => false
  | some s => s != ""

/-- Model of `session.query(Feature).filter(Feature.id == fid).first()`. -/
def findById (db : List Feature) (fid : Nat) : Option Feature :=
  db.find? (fun f => f.id == fid)

/-- Committing a mutation of the fetched ORM row: replace the row(s) with
the same primary key. -/
def updateById (db : List Feature) (f' : Feature) : List Feature :=
  db.map (fun g => if g.id = f'.id then f' else g)

/-- Availability filter of `feature_claim_next` (feature_mcp.py:449-459):
`passes == False` and ((not in_progress and unassigned) or assigned to the
claiming agent). -/
def claimFilter (agent_id : String) (f : Feature) : Bool :=
  !f.passes &&
    ((!f.in_progress && f.assigned_agent_id == none) ||
      f.assigned_agent_id == some agent_id)

/-- Model of `feature_claim_next` (feature_mcp.py:428-475): select the best available
row under the row lock, set `in_progress = True` and `assigned_agent_id`,
commit.  Returns the claimed row, or `none` for the "No features available"
error. -/
def feature_claim_next (agent_id : String) (db : List Feature) :
    Option Feature × List Feature :=
  match selectMin (db.filter (claimFilter agent_id)) with
  | none => (none, db)
  | some f =>
    let f' : Feature :=
      { f with in_progress := true, assigned_agent_id := some agent_id }
    (some f', updateById db f')

/-- Selection filter of `feature_get_next` (feature_mcp.py:189-196):
`passes == False`, and when an agent id is supplied, assigned to nobody or
to that agent. -/
def getNextFilter (agent_id : String) (f : Feature) : Bool :=
  !f.passes &&
    (agent_id == "" ||
      (f.assigned_agent_id == none || f.assigned_agent_id == some agent_id))

/-- Model of `feature_get_next` (feature_mcp.py:163-212): select the best pending row;
in parallel mode (agent id supplied) auto-claim it when it is not already
in progress. -/
def feature_get_next (agent_id : String) (db : List Feature) :
    Option Feature × List Feature :=
  match selectMin (db.filter (getNextFilter agent_id)) with
  | none => (none, db)
  | some f =>
    if agent_id != "" && !f.in_progress then
      let f' : Feature :=
        { f with in_progress := true, assigned_agent_id := some agent_id }
      (some f', updateById db f')
    else (some f, db)

/-- Modelled from the spec (§4.1), for the refinement claim only:
`nextAvailable(forOwner)` returns the lowest-priority (tie-break lowest id)
incomplete item whose owner is null or equals `forOwner`. -/
def specNextAvailable (owner : String) (db : List Feature) : Option Feature :=
  selectMin (db.filter (fun f =>
    !f.passes &&
      (f.assigned_agent_id == none || f.assigned_agent_id == some owner)))

/-- Model of `session.query(Feature.priority).order_by(Feature.priority.desc()).first()`. -/
def maxPriority : List Feature → Option Int
  | [] => none
  | f :: rest =>
    match maxPriority rest with
    | none => some f.priority
    | some m => some (max f.priority m)

/-- Result of `feature_skip`. -/
inductive SkipResult where
  | ok (id : Nat) (name : String) (old_priority new_priority : Int)
  | notFound
  | alreadyPassing
deriving DecidableEq, Repr

/-- Model of `feature_skip` (feature_mcp.py:298-347): error when the row is missing or
already passing; otherwise set `priority` to max existing priority + 1 and
clear `in_progress` (the assigned agent is left untouched by the source). -/
def feature_skip (fid : Nat) (db : List Feature) : SkipResult × List Feature :=
  match findById db fid with
  | none => (.notFound, db)
  | some f =>
    if f.passes then (.alreadyPassing, db)
    else
      let newPr : Int := match maxPriority db with | some m => m + 1 | none => 1
      let f' : Feature := { f with priority := newPr, in_progress := false }
      (.ok f.id f.name f.priority newPr, updateById db f')

/-- Result of `feature_mark_in_progress`. -/
inductive MarkResult where
  | ok (f : Feature)
  | notFound
  | alreadyPassing
  | conflict (assigned : String)
deriving DecidableEq, Repr

/-- Model of `feature_mark_in_progress` (feature_mcp.py:351-392): conflict only when
the row is in progress, its assigned agent is truthy and a different truthy
agent id is supplied; otherwise set `in_progress = True` and, when an agent
id is supplied, reassign the row to it. -/
def feature_mark_in_progress (fid : Nat) (agent_id : String)
    (db : List Feature) : MarkResult × List Feature :=
  match findById db fid with
  | none => (.notFound, db)
  | some f =>
    if f.passes then (.alreadyPassing, db)
    else if f.in_progress && pyTruthy f.assigned_agent_id && agent_id != "" &&
        !(f.assigned_agent_id == some agent_id) then
      (.conflict (f.assigned_agent_id.getD ""), db)
    else
      let f' : Feature :=
        { f with in_progress := true,
                 assigned_agent_id :=
                   if agent_id != "" then some agent_id
                   else f.assigned_agent_id }
      (.ok f', updateById db f')

/-- Result of `feature_release`. -/
inductive ReleaseResult where
  | ok (f : Feature)
  | notFound
  | forbidden (assigned : String)
deriving DecidableEq, Repr

/-- Model of `feature_release` (feature_mcp.py:479-519): forbidden when a truthy agent
id is supplied, the row's assigned agent is truthy and they differ; otherwise
clear `in_progress` and `assigned_agent_id` together. -/
def feature_release (fid : Nat) (agent_id : String) (db : List Feature) :
    ReleaseResult × List Feature :=
  match findById db fid with
  | none => (.notFound, db)
  | some f =>
    if agent_id != "" && pyTruthy f.assigned_agent_id &&
        !(f.assigned_agent_id == some agent_id) then
      (.forbidden (f.assigned_agent_id.getD ""), db)
    else
      let f' : Feature :=
        { f with in_progress := false, assigned_agent_id := none }
      (.ok f', updateById db f')

/-- Model of `feature_mark_passing` (feature_mcp.py:264-294): set `passes = True`,
clear `in_progress` and the agent assignment. -/
def feature_mark_passing (fid : Nat) (db : List Feature) :
    Option Feature × List Feature :=
  match findById db fid with
  | none => (none, db)
  | some f =>
    let f' : Feature :=
      { f with passes := true, in_progress := false, assigned_agent_id := none }
    (some f', updateById db f')

/-- A row of the `step_progress` table (class `StepProgress`,
src/api/database.py); timestamps are abstracted to `Nat`. -/
structure StepProgress where
  feature_id : Nat
  step_index : Nat
  step_text : String
  completed : Bool
  started_at : Option Nat
  completed_at : Option Nat
  notes : Option String
deriving DecidableEq, Repr

/-- Model of `query(StepProgress).filter(feature_id == fid, step_index == idx).first()`. -/
def findStep (steps : List StepProgress) (fid idx : Nat) : Option StepProgress :=
  steps.find? (fun s => s.feature_id == fid && s.step_index == idx)

/-- Model of `feature_step_mark_started` (feature_mcp.py:823-861): look the step record
up and set `started_at` to the current time — unconditionally, whether or not
it was already set. -/
def feature_step_mark_started (fid idx : Nat) (now : Nat)
    (steps : List StepProgress) : Option StepProgress × List StepProgress :=
  match findStep steps fid idx with
  | none => (none, steps)
  | some s =>
    let s' : StepProgress := { s with started_at := some now }
    (some s',
     steps.map (fun t =>
       if t.feature_id = fid ∧ t.step_index = idx then s' else t))

/-- One entry of the `features` argument of `feature_create_bulk`, with the
four required fields present and `type` defaulted as in the source. -/
structure CreateItem where
  type : String
  category : String
  name : String
  description : String
  steps : List String
deriving DecidableEq, Repr

/-- The persistent state touched by bulk creation: the two tables. -/
structure Store where
  features : List Feature
  steps : List StepProgress
deriving DecidableEq, Repr

/-- Model of `start_priority` of `feature_create_bulk` (feature_mcp.py:551-552):
max existing priority + 1, or 1 for an empty table. -/
def startPriority (db : List Feature) : Int :=
  match maxPriority db with
  | some m => m + 1
  | none => 1

/-- The `Feature(...)` row built for batch element `it` at base priority `pr`
(feature_mcp.py:562-581): bugs get 500 subtracted from the base priority. -/
def mkFeature (it : CreateItem) (pr : Int) (fid : Nat) (label : Option String) :
    Feature :=
  { id := fid
    priority := if it.type == "bug" then pr - 500 else pr
    type := it.type
    category := it.category
    name := it.name
    description := it.description
    steps := it.steps
    passes := false
    in_progress := false
    label := label
    assigned_agent_id := none }

/-- The rows added by the creation loop: base priorities are sequential from
`start`, ids from the autoincrement counter. -/
def buildFeatures (start : Int) (nextId : Nat) (label : Option String) :
    List CreateItem → List Feature
  | [] => []
  | it :: rest =>
    mkFeature it start nextId label :: buildFeatures (start + 1) (nextId + 1) label rest

/-- Model of `feature_create_bulk` (feature_mcp.py:523-592): append one `Feature` row
per batch item and commit.  No `StepProgress` rows are created.  Returns the
created count. -/
def feature_create_bulk (items : List CreateItem) (label : Option String)
    (nextId : Nat) (st : Store) : Nat × Store :=
  (items.length,
   { st with
       features :=
         st.features ++ buildFeatures (startPriority st.features) nextId label items })

/-- Running a sequence of `feature_claim_next` calls, one per owner, in the
order of some interleaving: each call is a single transaction under
`with_for_update`, so a concurrent execution is an arbitrary sequential order
of the atomic calls. -/
def runClaims (owners : List String) (db : List Feature) : List Feature :=
  owners.foldl (fun d o => (feature_claim_next o d).2) db

/-- Number of rows currently claimed (`in_progress = True`). -/
def countClaimed (db : List Feature) : Nat :=
  db.countP (fun f => f.in_progress)

/-- A row no worker has touched: pending, unclaimed, unassigned. -/
def pristineF (f : Feature) : Prop :=
  f.passes = false ∧ f.in_progress = false ∧ f.assigned_agent_id = none

instance (f : Feature) : Decidable (pristineF f) := by
  unfold pristineF; infer_instance

/-- The spec's data-model invariant for one row: a non-null owner implies the
claimed flag. -/
def invOwner (f : Feature) : Prop :=
  f.assigned_agent_id ≠ none → f.in_progress = true

instance (f : Feature) : Decidable (invOwner f) := by
  unfold invOwner; infer_instance

/-!
Part 2: the line protocol (src/agent_communication.py).  A message is the
line `@@MESSAGE@@` + `json.dumps({"type": t, "payload": p, "timestamp": ts})`.
JSON values are the inductive `JVal` (numbers as integers), `json.dumps` is
`serVal` (compact separators; the escapes of the standard encoder that the
claims exercise) and `json.loads` is the fuel-indexed recursive-descent
parser `readVal`, with the fuel instantiated at the input length.
-/

/-- A JSON value as produced by `json.loads` / consumed by `json.dumps`. -/
inductive JVal where
  | null
  | bool (b : Bool)
  | num (n : Int)
  | str (s : String)
  | arr (elts : List JVal)
  | obj (fields : List (String × JVal))
deriving Repr

/-- Decimal digit to character. -/
def digitToChar : Nat → Char
  | 0 => '0' | 1 => '1' | 2 => '2' | 3 => '3' | 4 => '4'
  | 5 => '5' | 6 => '6' | 7 => '7' | 8 => '8' | _ => '9'

/-- Character to decimal digit value. -/
def charToDigit (c : Char) : Nat := c.toNat - 48

/-- Decimal digits of a natural number, most significant first. -/
def serNat (n : Nat) : List Char :=
  if n = 0 then ['0'] else (Nat.digits 10 n).reverse.map digitToChar

/-- Decimal form of an integer. -/
def serInt (n : Int) : List Char :=
  if n < 0 then '-' :: serNat n.natAbs else serNat n.toNat

/-- JSON string escaping of one character (the encoder's two mandatory
escapes plus the common control characters). -/
def escapeChar (c : Char) : List Char :=
  if c = '"' then ['\\', '"']
  else if c = '\\' then ['\\', '\\']
  else if c = '\n' then ['\\', 'n']
  else if c = '\t' then ['\\', 't']
  else if c = '\r' then ['\\', 'r']
  else [c]

/-- JSON string escaping of a character sequence. -/
def escapeStr : List Char → List Char
  | [] => []
  | c :: rest => escapeChar c ++ escapeStr rest

/-- Undo `escapeChar` on the character following a backslash. -/
def unescapeChar (c : Char) : Option Char :=
  if c = '"' then some '"'
  else if c = '\\' then some '\\'
  else if c = 'n' then some '\n'
  else if c = 't' then some '\t'
  else if c = 'r' then some '\r'
  else none

/-- Serialized form of a quoted JSON string body (without the quotes). -/
def serKey (k : String) : List Char := '"' :: (escapeStr k.data ++ ['"'])

/-- Keyword spelling of the null value. -/
def litNull : List Char := 'n' :: 'u' :: 'l' :: 'l' :: []

/-- Keyword spelling of true. -/
def litTrue : List Char := 't' :: 'r' :: 'u' :: 'e' :: []

/-- Keyword spelling of false. -/
def litFalse : List Char := 'f' :: 'a' :: 'l' :: 's' :: 'e' :: []

mutual

/-- Model of `json.dumps` with compact separators. -/
def serVal : JVal → List Char
  | .null => litNull
  | .bool true => litTrue
  | .bool false => litFalse
  | .num n => serInt n
  | .str s => serKey s
  | .arr [] => ['[', ']']
  | .arr (x :: xs) => '[' :: serItems (x :: xs)
  | .obj [] => ['{', '}']
  | .obj (f :: fs) => '{' :: serFields (f :: fs)

/-- Array elements, comma separated, with the closing bracket. -/
def serItems : List JVal → List Char
  | [] => [']']
  | [x] => serVal x ++ [']']
  | x :: xs => serVal x ++ ',' :: serItems xs

/-- Object members, comma separated, with the closing brace. -/
def serFields : List (String × JVal) → List Char
  | [] => ['}']
  | [(k, v)] => serKey k ++ ':' :: (serVal v ++ ['}'])
  | (k, v) :: fs => serKey k ++ ':' :: (serVal v ++ ',' :: serFields fs)

end

/-- Parse the body of a quoted string after the opening quote; returns the
unescaped characters and the input after the closing quote. -/
def readQuoted : List Char → Option (List Char × List Char)
  | [] => none
  | ch :: tl =>
    if ch = '"' then some ([], tl)
    else if ch = '\\' then
      match tl with
      | [] => none
      | esc :: tl2 =>
        match unescapeChar esc with
        | none => none
        | some u => (readQuoted tl2).map (fun p => (u :: p.1, p.2))
    else (readQuoted tl).map (fun p => (ch :: p.1, p.2))

/-- Numeric value of a big-endian digit-character run. -/
def digitsVal (ds : List Char) : Nat :=
  ds.foldl (fun a c => 10 * a + charToDigit c) 0

/-- Parse a maximal nonempty run of decimal digits. -/
def readNat (cs : List Char) : Option (Nat × List Char) :=
  let ds := cs.takeWhile (fun c => c.isDigit)
  if ds.isEmpty then none
  else some (digitsVal ds, cs.dropWhile (fun c => c.isDigit))

/-- Consume an expected literal character sequence. -/
def dropLit : List Char → List Char → Option (List Char)
  | [], cs => some cs
  | k :: kt, c :: ct => if c = k then dropLit kt ct else none
  | _ :: _, [] => none

mutual

/-- Recursive-descent JSON parser; the fuel bounds the nesting work and is
instantiated at the input length by `jsonParse`. -/
def readVal : Nat → List Char → Option (JVal × List Char)
  | 0, _ => none
  | _ + 1, [] => none
  | fuel + 1, ch :: tl =>
    if ch.isDigit then
      (readNat (ch :: tl)).map (fun p => (JVal.num (p.1 : Int), p.2))
    else if ch = '-' then
      (readNat tl).map (fun p => (JVal.num (-(p.1 : Int)), p.2))
    else if ch = '"' then
      (readQuoted tl).map (fun p => (JVal.str (String.mk p.1), p.2))
    else if ch = '[' then
      if tl.head? = some ']' then some (JVal.arr [], tl.tail)
      else (readElts fuel tl).map (fun p => (JVal.arr p.1, p.2))
    else if ch = '{' then
      if tl.head? = some '}' then some (JVal.obj [], tl.tail)
      else (readPairs fuel tl).map (fun p => (JVal.obj p.1, p.2))
    else if ch = 'n' then
      (dropLit litNull.tail tl).map (fun u => (JVal.null, u))
    else if ch = 't' then
      (dropLit litTrue.tail tl).map (fun u => (JVal.bool true, u))
    else if ch = 'f' then
      (dropLit litFalse.tail tl).map (fun u => (JVal.bool false, u))
    else none

/-- Elements of a nonempty array, after the opening bracket. -/
def readElts : Nat → List Char → Option (List JVal × List Char)
  | 0, _ => none
  | fuel + 1, cs =>
    match readVal fuel cs with
    | none => none
    | some (v, u1) =>
      match u1 with
      | ']' :: u2 => some ([v], u2)
      | ',' :: u2 => (readElts fuel u2).map (fun p => (v :: p.1, p.2))
      | _ => none

/-- Members of a nonempty object, after the opening brace.  A member starts
with a quoted key, so anything else fails. -/
def readPairs : Nat → List Char → Option (List (String × JVal) × List Char)
  | 0, _ => none
  | fuel + 1, ch :: body =>
    if ch = '"' then
      match readQuoted body with
      | none => none
      | some (kcs, u1) =>
        match u1 with
        | ':' :: u2 =>
          match readVal fuel u2 with
          | none => none
          | some (v, u3) =>
            match u3 with
            | '}' :: u4 => some ([(String.mk kcs, v)], u4)
            | ',' :: u4 => (readPairs fuel u4).map (fun p => ((String.mk kcs, v) :: p.1, p.2))
            | _ => none
        | _ => none
    else none
  | _ + 1, [] => none

end

/-- Model of `json.loads` on a complete document: parse and require the input to be
consumed. -/
def jsonParse (cs : List Char) : Option JVal :=
  match readVal cs.length cs with
  | some (v, []) => some v
  | _ => none

/-- The sentinel `@@MESSAGE@@` of the wire format. -/
def msgMark : List Char := '@' :: '@' :: 'M' :: 'E' :: 'S' :: 'S' :: 'A' :: 'G' :: 'E' :: '@' :: '@' :: []

/-- The dict built by `AgentCommunicator.send_message` (agent_communication
.py:61-65). -/
def msgObj (ty : String) (payload : List (String × JVal)) (ts : String) : JVal :=
  .obj [("type", .str ty), ("payload", .obj payload), ("timestamp", .str ts)]

/-- Model of `AgentCommunicator.send_message` (agent_communication.py:53-69): the
framed line written to stdout. -/
def send_message (ty : String) (payload : List (String × JVal)) (ts : String) :
    List Char :=
  msgMark ++ serVal (msgObj ty payload ts)

/-- Model of `str.strip()` on a line (the whitespace classes the encoder can emit). -/
def pyStrip (l : List Char) : List Char :=
  ((l.dropWhile Char.isWhitespace).reverse.dropWhile Char.isWhitespace).reverse

/-- Python dict lookup on the parsed object: with duplicate keys,
`json.loads` keeps the last occurrence. -/
def jsonGet (fields : List (String × JVal)) (key : String) : Option JVal :=
  (fields.reverse.find? (fun kv => kv.1 == key)).map (fun kv => kv.2)

/-- Decoding of one inbound line by `AgentCommunicator._listen_stdin`
(agent_communication.py:116-161): strip, check the sentinel, parse the JSON
remainder, require `type` and `payload` members.  `none` collapses the three
silent-skip outcomes (no sentinel, malformed JSON, missing members) plus the
non-dict document, none of which reaches a callback. -/
def decodeLine (raw : List Char) : Option (JVal × JVal) :=
  if msgMark.isPrefixOf (pyStrip raw) then
    match jsonParse ((pyStrip raw).drop msgMark.length) with
    | none => none
    | some m =>
      match m with
      | .obj fields =>
        match jsonGet fields "type", jsonGet fields "payload" with
        | some tv, some pv => some (tv, pv)
        | _, _ => none
      | _ => none
  else none

/-- Dispatch of one line: the callback invocations it produces, given the
registered callbacks per message type (in registration order). -/
def processLine (cbs : String → List Nat) (raw : List Char) :
    List (Nat × JVal) :=
  match decodeLine raw with
  | none => []
  | some (tv, pv) =>
    match tv with
    | .str ty => (cbs ty).map (fun i => (i, pv))
    | _ => []

/-- The reader loop of `_listen_stdin`: process lines until end of stream
(`readline` returning the empty string). -/
def listenLoop (cbs : String → List Nat) : List (List Char) → List (Nat × JVal)
  | [] => []
  | l :: rest => if l = [] then [] else processLine cbs l ++ listenLoop cbs rest

/-- Guard for maximal-munch number parsing: the input after a serialized
number must not continue with a digit. -/
def noLeadingDigit : List Char → Prop
  | [] => True
  | c :: _ => c.isDigit = false

/-- The parse guard a serialized value needs on its right context: only
numbers are delimiter-sensitive. -/
def numGuard : JVal → List Char → Prop
  | .num _, rest => noLeadingDigit rest
  | _, _ => True

/-- Invariant of a store reached from a pristine store by the claims of the
distinct owners `done`, one `feature_claim_next` transaction each. -/
structure ClaimInv (done : List String) (db : List Feature) : Prop where
  passes_false : ∀ f ∈ db, f.passes = false
  unclaimed_unassigned : ∀ f ∈ db, f.in_progress = false → f.assigned_agent_id = none
  assigned_claimed : ∀ f ∈ db, ∀ o : String, f.assigned_agent_id = some o →
    f.in_progress = true ∧ o ∈ done
  claimed_assigned : ∀ f ∈ db, f.in_progress = true → f.assigned_agent_id ≠ none
  owner_unique : ∀ f ∈ db, ∀ g ∈ db, ∀ o : String,
    f.assigned_agent_id = some o → g.assigned_agent_id = some o → f = g
  count_eq : countClaimed db = min done.length db.length

/-- Example rows and inputs used by witnesses and counterexamples. -/
def exF1 : Feature :=
  { id := 1, priority := 10, type := "feature", category := "core",
    name := "one", description := "d", steps := ["s1"], passes := false,
    in_progress := false, label := none, assigned_agent_id := none }

def exF2 : Feature := { exF1 with id := 2, priority := 5, name := "two" }

def exF3 : Feature := { exF1 with id := 3, priority := 5, name := "three" }

def exG1 : Feature := { exF1 with in_progress := true }

def exH1 : Feature :=
  { exF1 with in_progress := true, assigned_agent_id := some "A" }

def exPassing : Feature := { exF1 with passes := true }

def exStep0 : StepProgress :=
  { feature_id := 1, step_index := 0, step_text := "t", completed := false,
    started_at := none, completed_at := none, notes := none }

def exItemFeat : CreateItem :=
  { type := "feature", category := "core", name := "n", description := "d",
    steps := ["only step"] }

def exItemBug : CreateItem := { exItemFeat with type := "bug", name := "b" }

def exBadLine : List Char := ('@' :: '@' :: 'M' :: 'E' :: 'S' :: 'S' :: 'A' :: 'G' :: 'E' :: '@' :: '@' :: 'o' :: 'o' :: 'p' :: 's' :: [])

def exCbs : String → List Nat := fun t => if t = "ping" then [0, 1] else []

/-!
Part 3: lemmas about the store primitives.
-/

theorem findById_mem {db : List Feature} {fid : Nat} {f : Feature}
    (h : findById db fid = some f) : f ∈ db ∧ f.id = fid := by
  unfold findById at h
  refine ⟨List.mem_of_find?_eq_some h, ?_⟩
  have := List.find?_some h
  simpa using this

theorem mem_updateById {db : List Feature} {f' g : Feature}
    (h : g ∈ updateById db f') : g = f' ∨ g ∈ db := by
  unfold updateById at h
  obtain ⟨x, hx, hxe⟩ := List.mem_map.1 h
  by_cases hc : x.id = f'.id
  · left; rw [← hxe]; simp [hc]
  · right; rw [← hxe]; simpa [hc] using hx

theorem updateById_mem_id {db : List Feature} {f' g : Feature}
    (h : g ∈ updateById db f') (hid : g.id = f'.id) : g = f' := by
  unfold updateById at h
  obtain ⟨x, hx, hxe⟩ := List.mem_map.1 h
  by_cases hc : x.id = f'.id
  · rw [← hxe]; simp [hc]
  · rw [← hxe] at hid ⊢
    simp only [if_neg hc] at hid ⊢
    exact absurd hid hc

theorem updateById_map_id (db : List Feature) (f' : Feature) :
    (updateById db f').map (fun g => g.id) = db.map (fun g => g.id) := by
  unfold updateById
  rw [List.map_map]
  refine List.map_congr_left (fun g _ => ?_)
  by_cases hc : g.id = f'.id <;> simp [hc]

theorem updateById_length (db : List Feature) (f' : Feature) :
    (updateById db f').length = db.length := by
  unfold updateById; simp

theorem updateById_of_ne {db : List Feature} (f' : Feature)
    (h : ∀ g ∈ db, g.id ≠ f'.id) : updateById db f' = db := by
  unfold updateById
  conv_rhs => rw [← List.map_id db]
  refine List.map_congr_left (fun g hg => ?_)
  simp [h g hg]

theorem maxPriority_isSome {db : List Feature} (h : db ≠ []) :
    ∃ m, maxPriority db = some m := by
  cases db with
  | nil => exact absurd rfl h
  | cons f rest =>
    unfold maxPriority
    cases maxPriority rest <;> simp

theorem maxPriority_eq_none {db : List Feature} :
    maxPriority db = none ↔ db = [] := by
  cases db with
  | nil => simp [maxPriority]
  | cons f rest =>
    simp only [maxPriority]
    cases maxPriority rest <;> simp

theorem maxPriority_le {db : List Feature} {m : Int}
    (h : maxPriority db = some m) : ∀ g ∈ db, g.priority ≤ m := by
  induction db generalizing m with
  | nil => simp
  | cons f rest ih =>
    intro g hg
    simp only [maxPriority] at h
    cases hrest : maxPriority rest with
    | none =>
      simp only [hrest, Option.some.injEq] at h
      have hre : rest = [] := maxPriority_eq_none.1 hrest
      subst hre
      rcases List.mem_cons.1 hg with hg | hg
      · subst hg; omega
      · cases hg
    | some m2 =>
      simp only [hrest, Option.some.injEq] at h
      rcases List.mem_cons.1 hg with hg | hg
      · subst hg; omega
      · have := ih hrest g hg; omega

theorem keyLe_refl (f : Feature) : keyLe f f := by
  unfold keyLe; omega

theorem keyLe_of_not_keyLt {f g : Feature} (h : ¬ keyLt g f) : keyLe f g := by
  unfold keyLt at h
  unfold keyLe
  omega

theorem keyLe_trans {f g h : Feature} (h1 : keyLe f g) (h2 : keyLe g h) :
    keyLe f h := by
  unfold keyLe at h1 h2 ⊢
  omega

theorem keyLe_of_keyLt {f g : Feature} (h : keyLt f g) : keyLe f g := by
  unfold keyLt at h; unfold keyLe; omega

theorem selectMin_eq_none {l : List Feature} :
    selectMin l = none ↔ l = [] := by
  cases l with
  | nil => simp [selectMin]
  | cons f rest =>
    simp only [selectMin]
    cases selectMin rest with
    | none => simp
    | some g =>
      constructor
      · intro h
        by_cases hc : keyLt g f <;> simp [hc] at h
      · intro h; cases h

theorem selectMin_mem {l : List Feature} {f : Feature}
    (h : selectMin l = some f) : f ∈ l := by
  induction l generalizing f with
  | nil => cases h
  | cons x rest ih =>
    simp only [selectMin] at h
    cases hrest : selectMin rest with
    | none =>
      simp only [hrest, Option.some.injEq] at h
      simp [h]
    | some g =>
      simp only [hrest] at h
      by_cases hc : keyLt g x
      · rw [if_pos hc] at h
        simp only [Option.some.injEq] at h
        subst h
        exact List.mem_cons_of_mem _ (ih hrest)
      · rw [if_neg hc] at h
        simp only [Option.some.injEq] at h
        simp [h]

theorem selectMin_min {l : List Feature} {f : Feature}
    (h : selectMin l = some f) : ∀ g ∈ l, keyLe f g := by
  induction l generalizing f with
  | nil => simp
  | cons x rest ih =>
    intro g hg
    simp only [selectMin] at h
    cases hrest : selectMin rest with
    | none =>
      simp only [hrest, Option.some.injEq] at h
      have hre : rest = [] := selectMin_eq_none.1 hrest
      subst hre
      rcases List.mem_cons.1 hg with hg2 | hg2
      · subst hg2; subst h; exact keyLe_refl _
      · cases hg2
    | some m =>
      simp only [hrest] at h
      by_cases hc : keyLt m x
      · rw [if_pos hc] at h
        simp only [Option.some.injEq] at h
        subst h
        rcases List.mem_cons.1 hg with hg2 | hg2
        · subst hg2; exact keyLe_of_keyLt hc
        · exact ih hrest g hg2
      · rw [if_neg hc] at h
        simp only [Option.some.injEq] at h
        subst h
        rcases List.mem_cons.1 hg with hg2 | hg2
        · subst hg2; exact keyLe_refl _
        · exact keyLe_trans (keyLe_of_not_keyLt hc) (ih hrest g hg2)

/-!
Part 4: claims about the single-row operations (C10, C4, C6, C5).
-/

/-- C10: on an incomplete item already claimed by agent `a`,
`feature_mark_in_progress` with an empty owner identifier succeeds rather
than returning a conflict: it returns the item with `in_progress = true`,
and the stored row keeps `assigned_agent_id = a` unchanged. -/
theorem mark_in_progress_empty_agent (db : List Feature) (fid : Nat)
    (f : Feature) (a : String)
    (hfind : findById db fid = some f)
    (hp : f.passes = false) (hip : f.in_progress = true)
    (ha : f.assigned_agent_id = some a) :
    (∃ g, (feature_mark_in_progress fid "" db).1 = MarkResult.ok g ∧
       g.in_progress = true ∧ g.assigned_agent_id = some a) ∧
    ∀ g ∈ (feature_mark_in_progress fid "" db).2, g.id = fid →
      g.in_progress = true ∧ g.assigned_agent_id = some a := by
  have hid := (findById_mem hfind).2
  unfold feature_mark_in_progress
  rw [hfind]
  simp only [hp, Bool.false_eq_true, if_false]
  have hcond : (f.in_progress && pyTruthy f.assigned_agent_id &&
      ("" != "") && !(f.assigned_agent_id == some "")) = false := by
    simp
  rw [hcond]
  simp only [Bool.false_eq_true, if_false]
  constructor
  · exact ⟨_, rfl, rfl, by simp [ha]⟩
  · intro g hg hgid
    have hgid2 : g.id =
        (Feature.mk f.id f.priority f.type f.category f.name f.description
          f.steps f.passes true f.label
          (if ("" != "") then some "" else f.assigned_agent_id)).id := by
      simpa using hgid.trans hid.symm
    have := updateById_mem_id hg hgid2
    subst this
    simp [ha]

/-- C4: `feature_skip` on an incomplete item sets its priority strictly
above every priority currently in the store and clears `in_progress`; on an
already-passing item it returns the conflict error and changes nothing. -/
theorem skip_spec (db : List Feature) (fid : Nat) (f : Feature)
    (hfind : findById db fid = some f) :
    (f.passes = true →
       (feature_skip fid db).1 = SkipResult.alreadyPassing ∧
       (feature_skip fid db).2 = db) ∧
    (f.passes = false →
       ∀ g ∈ (feature_skip fid db).2, g.id = fid →
         (∀ h2 ∈ db, h2.priority < g.priority) ∧ g.in_progress = false) := by
  obtain ⟨hmem, hid⟩ := findById_mem hfind
  constructor
  · intro hp
    unfold feature_skip
    rw [hfind]
    simp [hp]
  · intro hp g hg hgid
    unfold feature_skip at hg
    rw [hfind] at hg
    simp only [hp, Bool.false_eq_true, if_false] at hg
    obtain ⟨m, hm⟩ := maxPriority_isSome (List.ne_nil_of_mem hmem)
    rw [hm] at hg
    have hgid2 : g.id =
        (Feature.mk f.id (m + 1) f.type f.category f.name f.description
          f.steps f.passes false f.label f.assigned_agent_id).id := by
      simpa using hgid.trans hid.symm
    have hge := updateById_mem_id hg hgid2
    subst hge
    refine ⟨fun h2 hh2 => ?_, rfl⟩
    have := maxPriority_le hm h2 hh2
    simp only []
    omega

/-- C6: `feature_release` with a non-matching owner returns the forbidden
error and leaves the store unchanged; `feature_release` with no owner
supplied succeeds whenever the item exists, clearing both `in_progress` and
`assigned_agent_id`. -/
theorem release_spec (db : List Feature) (fid : Nat) (f : Feature)
    (a b : String) (hfind : findById db fid = some f) :
    (f.assigned_agent_id = some a → a ≠ "" → b ≠ "" → b ≠ a →
       (feature_release fid b db).1 = ReleaseResult.forbidden a ∧
       (feature_release fid b db).2 = db) ∧
    ((∃ g, (feature_release fid "" db).1 = ReleaseResult.ok g ∧
        g.in_progress = false ∧ g.assigned_agent_id = none) ∧
     ∀ g ∈ (feature_release fid "" db).2, g.id = fid →
       g.in_progress = false ∧ g.assigned_agent_id = none) := by
  have hid := (findById_mem hfind).2
  constructor
  · intro ha hane hbne hba
    unfold feature_release
    rw [hfind]
    have h1 : (b != "") = true := by simp [hbne]
    have h2 : pyTruthy (some a) = true := by simp [pyTruthy, hane]
    have h3 : ((some a : Option String) == some b) = false := by
      simp only [beq_eq_false_iff_ne, ne_eq, Option.some.injEq]
      exact fun h => hba h.symm
    simp only [ha]
    simp only [Bool.and_eq_true, bne_iff_ne, ne_eq, Bool.not_eq_eq_eq_not,
      Bool.not_true, beq_eq_false_iff_ne, Option.some.injEq]
    rw [if_pos ⟨⟨hbne, h2⟩, fun h => hba h.symm⟩]
    exact ⟨rfl, rfl⟩
  · unfold feature_release
    rw [hfind]
    have hcond : (("" : String) != "" && pyTruthy f.assigned_agent_id &&
        !(f.assigned_agent_id == some "")) = false := by
      simp
    simp only [hcond, Bool.false_eq_true, if_false]
    constructor
    · exact ⟨_, rfl, rfl, rfl⟩
    · intro g hg hgid
      have hgid2 : g.id =
          (Feature.mk f.id f.priority f.type f.category f.name f.description
            f.steps f.passes false f.label none).id := by
        simpa using hgid.trans hid.symm
      have := updateById_mem_id hg hgid2
      subst this
      exact ⟨rfl, rfl⟩

/-- C5 counterexample: two successive `feature_step_mark_started` calls on
the same step record; the second call overwrites the first timestamp (5
becomes 7), so the first call does not win. -/
theorem mark_started_overwrite_cex :
    ((feature_step_mark_started 1 0 7
        ((feature_step_mark_started 1 0 5 [exStep0]).2)).2).map
      (fun s => s.started_at) = [some 7] ∧ some (7 : Nat) ≠ some (5 : Nat) :=
  ⟨rfl, by decide⟩

/-- C5 amended: `feature_step_mark_started` sets `started_at` to the current
time unconditionally — whenever the step record exists the call returns it
with `started_at = now`, overwriting any previously recorded value (last
call wins, not first). -/
theorem mark_started_spec (steps : List StepProgress) (fid idx now : Nat)
    (s : StepProgress) (hfind : findStep steps fid idx = some s) :
    (feature_step_mark_started fid idx now steps).1
      = some { s with started_at := some now } ∧
    ∀ t ∈ (feature_step_mark_started fid idx now steps).2,
      t.feature_id = fid → t.step_index = idx → t.started_at = some now := by
  unfold feature_step_mark_started
  rw [hfind]
  refine ⟨rfl, ?_⟩
  intro t ht h1 h2
  simp only [List.mem_map] at ht
  obtain ⟨u, hu, hue⟩ := ht
  by_cases hc : u.feature_id = fid ∧ u.step_index = idx
  · rw [if_pos hc] at hue
    rw [← hue]
  · rw [if_neg hc] at hue
    subst hue
    exact absurd ⟨h1, h2⟩ hc

/-- C5 witness for the amended theorem. -/
theorem mark_started_spec_w :
    (feature_step_mark_started 1 0 7 [{ exStep0 with started_at := some 5 }]).1
      = some { exStep0 with started_at := some 7 } ∧
    ∀ t ∈ (feature_step_mark_started 1 0 7
        [{ exStep0 with started_at := some 5 }]).2,
      t.feature_id = 1 → t.step_index = 0 → t.started_at = some 7 :=
  mark_started_spec [{ exStep0 with started_at := some 5 }] 1 0 7
    { exStep0 with started_at := some 5 } rfl

/-!
Claim C3: the owner/claimed invariant.
-/

/-- C3 counterexample: starting from a pristine one-item store (a reachable
state), `feature_claim_next "a"` followed by `feature_skip 1` leaves a row
whose owner is non-null while `in_progress` is false — `feature_skip` does
not preserve the invariant. -/
theorem owner_invariant_skip_cex :
    ∃ g ∈ (feature_skip 1 (feature_claim_next "a" [exF1]).2).2,
      g.assigned_agent_id ≠ none ∧ g.in_progress = false := by
  decide

/-- C3 amended: `owner non-null implies claimed` is preserved by claimNext,
markClaimed (`feature_mark_in_progress`), release and complete
(`feature_mark_passing`) — release clears both fields together — but not by
skip, which clears `in_progress` while leaving the owner assigned (see the
counterexample). -/
theorem owner_invariant_preservation (db : List Feature)
    (hinv : ∀ f ∈ db, invOwner f) :
    (∀ a : String, ∀ g ∈ (feature_claim_next a db).2, invOwner g) ∧
    (∀ (fid : Nat) (a : String),
       ∀ g ∈ (feature_mark_in_progress fid a db).2, invOwner g) ∧
    (∀ (fid : Nat) (a : String),
       ∀ g ∈ (feature_release fid a db).2, invOwner g) ∧
    (∀ fid : Nat, ∀ g ∈ (feature_mark_passing fid db).2, invOwner g) := by
  refine ⟨?_, ?_, ?_, ?_⟩
  · intro a g hg
    unfold feature_claim_next at hg
    cases hsel : selectMin (db.filter (claimFilter a)) with
    | none => rw [hsel] at hg; exact hinv g hg
    | some f =>
      rw [hsel] at hg
      rcases mem_updateById hg with hge | hge
      · subst hge; intro _; rfl
      · exact hinv g hge
  · intro fid a g hg
    unfold feature_mark_in_progress at hg
    cases hfind : findById db fid with
    | none => rw [hfind] at hg; exact hinv g hg
    | some f =>
      rw [hfind] at hg
      simp only [] at hg
      by_cases hp : f.passes
      · simp only [hp, if_true] at hg
        exact hinv g hg
      · simp only [hp, Bool.false_eq_true, if_false] at hg
        by_cases hc : (f.in_progress && pyTruthy f.assigned_agent_id &&
            a != "" && !(f.assigned_agent_id == some a)) = true
        · rw [if_pos hc] at hg
          exact hinv g hg
        · rw [if_neg hc] at hg
          rcases mem_updateById hg with hge | hge
          · subst hge; intro _; rfl
          · exact hinv g hge
  · intro fid a g hg
    unfold feature_release at hg
    cases hfind : findById db fid with
    | none => rw [hfind] at hg; exact hinv g hg
    | some f =>
      rw [hfind] at hg
      simp only [] at hg
      by_cases hc : (a != "" && pyTruthy f.assigned_agent_id &&
          !(f.assigned_agent_id == some a)) = true
      · rw [if_pos hc] at hg
        exact hinv g hg
      · rw [if_neg hc] at hg
        rcases mem_updateById hg with hge | hge
        · subst hge; intro hcontra; exact absurd rfl hcontra
        · exact hinv g hge
  · intro fid g hg
    unfold feature_mark_passing at hg
    cases hfind : findById db fid with
    | none => rw [hfind] at hg; exact hinv g hg
    | some f =>
      rw [hfind] at hg
      rcases mem_updateById hg with hge | hge
      · subst hge; intro hcontra; exact absurd rfl hcontra
      · exact hinv g hge

/-- C3 witness for the amended theorem. -/
theorem owner_invariant_preservation_w :
    (∀ a : String, ∀ g ∈ (feature_claim_next a [exH1]).2, invOwner g) ∧
    (∀ (fid : Nat) (a : String),
       ∀ g ∈ (feature_mark_in_progress fid a [exH1]).2, invOwner g) ∧
    (∀ (fid : Nat) (a : String),
       ∀ g ∈ (feature_release fid a [exH1]).2, invOwner g) ∧
    (∀ fid : Nat, ∀ g ∈ (feature_mark_passing fid [exH1]).2, invOwner g) :=
  owner_invariant_preservation [exH1] (by decide)

/-!
Claim C7: bulk creation.
-/

theorem buildFeatures_priority (start : Int) (nid : Nat) (label : Option String)
    (items : List CreateItem) (i : Nat) :
    ((buildFeatures start nid label items)[i]?).map (fun f => f.priority)
      = (items[i]?).map
          (fun it => start + i - if it.type == "bug" then 500 else 0) := by
  induction items generalizing start nid i with
  | nil => simp [buildFeatures]
  | cons it rest ih =>
    cases i with
    | zero =>
      simp only [buildFeatures, List.getElem?_cons_zero, Option.map_some',
        Option.some.injEq, mkFeature]
      by_cases hb : (it.type == "bug") = true
      · simp only [hb, if_true]
        push_cast
        ring
      · simp only [hb, Bool.false_eq_true, if_false]
        push_cast
        ring
    | succ j =>
      simp only [buildFeatures, List.getElem?_cons_succ]
      rw [ih (start + 1) (nid + 1) j]
      cases hr : rest[j]? with
      | none => rfl
      | some it2 =>
        simp only [Option.map_some', Option.some.injEq]
        by_cases hb : (it2.type == "bug") = true
        · simp only [hb, if_true]
          push_cast
          ring
        · simp only [hb, Bool.false_eq_true, if_false]
          push_cast
          ring

/-- C7 counterexample: creating a batch of one item that declares one step
persists zero StepProgress records — no StepRecord row exists after the
creation, although the claim requires one per declared step. -/
theorem create_bulk_no_step_records_cex :
    (feature_create_bulk [exItemFeat] none 1
        { features := [], steps := [] }).2.steps = [] ∧
    exItemFeat.steps.length = 1 :=
  ⟨rfl, rfl⟩

/-- C7 amended: `feature_create_bulk` appends one feature row per batch item
with sequential base priorities starting at max existing priority + 1 in
batch order, subtracting the fixed defect boost of 500 for bug items — but
persists no StepProgress records at all (the step_progress table is written
only by the one-time startup migration). -/
theorem create_bulk_spec (items : List CreateItem) (label : Option String)
    (nextId : Nat) (st : Store) (m : Int)
    (hmax : maxPriority st.features = some m) :
    (feature_create_bulk items label nextId st).2.steps = st.steps ∧
    (feature_create_bulk items label nextId st).2.features
      = st.features ++ buildFeatures (m + 1) nextId label items ∧
    ∀ i : Nat,
      ((buildFeatures (m + 1) nextId label items)[i]?).map (fun f => f.priority)
        = (items[i]?).map
            (fun it => m + 1 + i - if it.type == "bug" then 500 else 0) := by
  have hstart : startPriority st.features = m + 1 := by
    unfold startPriority
    rw [hmax]
  refine ⟨rfl, ?_, ?_⟩
  · unfold feature_create_bulk
    rw [hstart]
  · intro i
    exact buildFeatures_priority (m + 1) nextId label items i

/-- C7 witness for the amended theorem. -/
theorem create_bulk_spec_w :
    (feature_create_bulk [exItemBug, exItemFeat] (some "w") 2
        { features := [exF1], steps := [] }).2.steps = [] ∧
    (feature_create_bulk [exItemBug, exItemFeat] (some "w") 2
        { features := [exF1], steps := [] }).2.features
      = [exF1] ++ buildFeatures (10 + 1) 2 (some "w") [exItemBug, exItemFeat] ∧
    ∀ i : Nat,
      ((buildFeatures (10 + 1) 2 (some "w") [exItemBug, exItemFeat])[i]?).map
          (fun f => f.priority)
        = (([exItemBug, exItemFeat])[i]?).map
            (fun it => (10 : Int) + 1 + i - if it.type == "bug" then 500 else 0) :=
  create_bulk_spec [exItemBug, exItemFeat] (some "w") 2
    { features := [exF1], steps := [] } 10 (by decide)

/-- C10 witness. -/
theorem mark_in_progress_empty_agent_w :
    (∃ g, (feature_mark_in_progress 1 "" [exH1]).1 = MarkResult.ok g ∧
       g.in_progress = true ∧ g.assigned_agent_id = some "A") ∧
    ∀ g ∈ (feature_mark_in_progress 1 "" [exH1]).2, g.id = 1 →
      g.in_progress = true ∧ g.assigned_agent_id = some "A" :=
  mark_in_progress_empty_agent [exH1] 1 exH1 "A" rfl rfl rfl rfl

/-- C4 witness. -/
theorem skip_spec_w :
    ((exPassing.passes = true →
       (feature_skip 1 [exPassing]).1 = SkipResult.alreadyPassing ∧
       (feature_skip 1 [exPassing]).2 = [exPassing]) ∧
     (exPassing.passes = false →
       ∀ g ∈ (feature_skip 1 [exPassing]).2, g.id = 1 →
         (∀ h2 ∈ [exPassing], h2.priority < g.priority) ∧
           g.in_progress = false)) ∧
    ((exF1.passes = true →
       (feature_skip 1 [exF1]).1 = SkipResult.alreadyPassing ∧
       (feature_skip 1 [exF1]).2 = [exF1]) ∧
     (exF1.passes = false →
       ∀ g ∈ (feature_skip 1 [exF1]).2, g.id = 1 →
         (∀ h2 ∈ [exF1], h2.priority < g.priority) ∧
           g.in_progress = false)) :=
  ⟨skip_spec [exPassing] 1 exPassing rfl, skip_spec [exF1] 1 exF1 rfl⟩

/-- C6 witness. -/
theorem release_spec_w :
    ((exH1.assigned_agent_id = some "A" → "A" ≠ "" → "B" ≠ "" → "B" ≠ "A" →
       (feature_release 1 "B" [exH1]).1 = ReleaseResult.forbidden "A" ∧
       (feature_release 1 "B" [exH1]).2 = [exH1]) ∧
     ((∃ g, (feature_release 1 "" [exH1]).1 = ReleaseResult.ok g ∧
         g.in_progress = false ∧ g.assigned_agent_id = none) ∧
      ∀ g ∈ (feature_release 1 "" [exH1]).2, g.id = 1 →
        g.in_progress = false ∧ g.assigned_agent_id = none)) :=
  release_spec [exH1] 1 exH1 "A" "B" rfl

/-!
Claim C2: claimNext versus nextAvailable.
-/

/-- C2 counterexample: the state `[exG1]` (incomplete, `in_progress = true`,
unassigned) is reachable by `feature_mark_in_progress 1 ""` from a pristine
store; on it the spec's `nextAvailable("a")` — and the code's
`feature_get_next("a")` — selects the item, while `feature_claim_next("a")`
returns the not-available error: claimNext does not select what
nextAvailable specifies, and the NotAvailable/Empty biconditional fails. -/
theorem claim_next_vs_next_available_cex :
    (feature_mark_in_progress 1 "" [exF1]).2 = [exG1] ∧
    specNextAvailable "a" [exG1] = some exG1 ∧
    (feature_get_next "a" [exG1]).1 = some exG1 ∧
    (feature_claim_next "a" [exG1]).1 = none := by
  refine ⟨?_, rfl, rfl, rfl⟩
  decide

/-- C2 amended: `feature_claim_next owner` selects the lowest-priority
(tie-break lowest id) incomplete item that is either unclaimed and
unassigned, or assigned to the owner (`claimFilter`, which unlike
`nextAvailable` excludes claimed-but-unassigned items); when such an item
exists it is returned and stored with `in_progress = true` and the owner
set, and the not-available error is returned exactly when no such item
exists. -/
theorem claim_next_selection_spec (agent : String) (db : List Feature) :
    ((feature_claim_next agent db).1 = none ↔
       ∀ f ∈ db, claimFilter agent f = false) ∧
    ∀ r, (feature_claim_next agent db).1 = some r →
      ∃ f ∈ db, claimFilter agent f = true ∧
        (∀ g ∈ db, claimFilter agent g = true → keyLe f g) ∧
        r = { f with in_progress := true, assigned_agent_id := some agent } ∧
        (feature_claim_next agent db).2 = updateById db r := by
  unfold feature_claim_next
  cases hsel : selectMin (db.filter (claimFilter agent)) with
  | none =>
    have hnil : db.filter (claimFilter agent) = [] := selectMin_eq_none.1 hsel
    dsimp only
    refine ⟨⟨fun _ => ?_, fun _ => rfl⟩, fun r hr => ?_⟩
    · intro f hf
      by_contra hcf
      have hmf : f ∈ db.filter (claimFilter agent) :=
        List.mem_filter.2 ⟨hf, by simpa using hcf⟩
      rw [hnil] at hmf
      cases hmf
    · cases hr
  | some f =>
    have hmem := selectMin_mem hsel
    have hfl := List.mem_filter.1 hmem
    dsimp only
    constructor
    · constructor
      · intro h
        cases h
      · intro hall
        exact absurd hfl.2 (by simp [hall f hfl.1])
    · intro r hr
      simp only [Option.some.injEq] at hr
      refine ⟨f, hfl.1, hfl.2, fun g hg hcg => ?_, hr.symm, by rw [← hr]⟩
      exact selectMin_min hsel g (List.mem_filter.2 ⟨hg, hcg⟩)

/-- C2 witness for the amended theorem. -/
theorem claim_next_selection_spec_w :
    ((feature_claim_next "a" [exF1]).1 = none ↔
       ∀ f ∈ [exF1], claimFilter "a" f = false) ∧
    ∀ r, (feature_claim_next "a" [exF1]).1 = some r →
      ∃ f ∈ [exF1], claimFilter "a" f = true ∧
        (∀ g ∈ [exF1], claimFilter "a" g = true → keyLe f g) ∧
        r = { f with in_progress := true, assigned_agent_id := some "a" } ∧
        (feature_claim_next "a" [exF1]).2 = updateById [exF1] r :=
  claim_next_selection_spec "a" [exF1]

/-!
Claim C1: concurrent claims, modelled as an arbitrary sequential order of
the atomic claim transactions.
-/

theorem mem_updateById_cases {db : List Feature} {f' g : Feature}
    (h : g ∈ updateById db f') : g = f' ∨ (g ∈ db ∧ g.id ≠ f'.id) := by
  unfold updateById at h
  obtain ⟨x, hx, hxe⟩ := List.mem_map.1 h
  by_cases hc : x.id = f'.id
  · left; rw [← hxe]; simp [hc]
  · right
    rw [← hxe]
    simp only [if_neg hc]
    exact ⟨hx, hc⟩

theorem nodup_ids_inj {db : List Feature}
    (hids : (db.map (fun f => f.id)).Nodup) :
    ∀ f ∈ db, ∀ g ∈ db, f.id = g.id → f = g := by
  induction db with
  | nil => simp
  | cons x t ih =>
    simp only [List.map_cons, List.nodup_cons] at hids
    intro f hf g hg heq
    rcases List.mem_cons.1 hf with hf2 | hf2 <;>
      rcases List.mem_cons.1 hg with hg2 | hg2
    · rw [hf2, hg2]
    · subst hf2
      exact absurd (heq ▸ List.mem_map_of_mem (fun f => f.id) hg2) hids.1
    · subst hg2
      exact absurd (heq ▸ List.mem_map_of_mem (fun f => f.id) hf2) hids.1
    · exact ih hids.2 f hf2 g hg2 heq

theorem countClaimed_updateById {db : List Feature} {f f' : Feature}
    (hids : (db.map (fun g => g.id)).Nodup) (hf : f ∈ db)
    (hip : f.in_progress = false) (hid : f'.id = f.id)
    (hip' : f'.in_progress = true) :
    countClaimed (updateById db f') = countClaimed db + 1 := by
  induction db with
  | nil => cases hf
  | cons x t ih =>
    simp only [List.map_cons, List.nodup_cons] at hids
    unfold updateById countClaimed at *
    simp only [List.map_cons, List.countP_cons] at *
    by_cases hc : x.id = f'.id
    · have hfx : f = x := by
        rcases List.mem_cons.1 hf with hf2 | hf2
        · exact hf2
        · have hmm : f.id ∈ List.map (fun g => g.id) t :=
            List.mem_map_of_mem (fun g => g.id) hf2
          rw [← hid, ← hc] at hmm
          exact absurd hmm hids.1
      have ht : List.map (fun g => if g.id = f'.id then f' else g) t = t := by
        conv_rhs => rw [← List.map_id t]
        refine List.map_congr_left (fun g hg => ?_)
        have hgne : g.id ≠ f'.id := by
          intro hcontra
          have hmm : g.id ∈ List.map (fun g2 => g2.id) t :=
            List.mem_map_of_mem (fun g2 => g2.id) hg
          rw [hcontra, ← hc] at hmm
          exact absurd hmm hids.1
        simp [hgne]
      rw [ht, if_pos hc]
      subst hfx
      simp [hip, hip']
    · have hfx : f ∈ t := by
        rcases List.mem_cons.1 hf with hf2 | hf2
        · rw [hf2] at hid
          exact absurd hid.symm hc
        · exact hf2
      rw [if_neg hc]
      have hih := ih hids.2 hfx
      omega

theorem claimInv_init {db : List Feature} (h : ∀ f ∈ db, pristineF f) :
    ClaimInv [] db := by
  refine ⟨fun f hf => (h f hf).1, fun f hf _ => (h f hf).2.2, ?_, ?_, ?_, ?_⟩
  · intro f hf o ho
    exact absurd ((h f hf).2.2 ▸ ho) (by simp)
  · intro f hf hip
    exact absurd ((h f hf).2.1 ▸ hip) (by simp)
  · intro f hf g hg o hfo hgo
    exact absurd ((h f hf).2.2 ▸ hfo) (by simp)
  · unfold countClaimed
    rw [List.countP_eq_zero.2 (fun f hf => by simp [(h f hf).2.1])]
    simp

theorem claimInv_step {done : List String} {db : List Feature} {o : String}
    (hinv : ClaimInv done db) (ho : o ∉ done)
    (hids : (db.map (fun f => f.id)).Nodup) :
    ClaimInv (done ++ [o]) (feature_claim_next o db).2 ∧
    (feature_claim_next o db).2.map (fun f => f.id) = db.map (fun f => f.id) := by
  have hfeq : db.filter (claimFilter o) = db.filter (fun f => !f.in_progress) := by
    refine List.filter_congr (fun f hf => ?_)
    have hp := hinv.passes_false f hf
    cases hip : f.in_progress with
    | true =>
      have hne := hinv.claimed_assigned f hf hip
      obtain ⟨o2, ho2⟩ : ∃ o2, f.assigned_agent_id = some o2 := by
        cases hass : f.assigned_agent_id with
        | none => exact absurd hass hne
        | some x => exact ⟨x, rfl⟩
      have ho2d := (hinv.assigned_claimed f hf o2 ho2).2
      have hno : o2 ≠ o := fun h => ho (h ▸ ho2d)
      simp [claimFilter, hp, hip, ho2, hno]
    | false =>
      have hass := hinv.unclaimed_unassigned f hf hip
      simp [claimFilter, hp, hip, hass]
  unfold feature_claim_next
  rw [hfeq]
  cases hsel : selectMin (db.filter (fun f => !f.in_progress)) with
  | none =>
    have hnil := selectMin_eq_none.1 hsel
    have hall : ∀ f ∈ db, f.in_progress = true := by
      intro f hf
      by_contra hcf
      have hmf : f ∈ db.filter (fun f => !f.in_progress) := by
        refine List.mem_filter.2 ⟨hf, ?_⟩
        simp only [Bool.not_eq_true] at hcf
        simp [hcf]
      rw [hnil] at hmf
      cases hmf
    have hcount : countClaimed db = db.length := by
      unfold countClaimed
      exact List.countP_eq_length.2 (fun f hf => by simp [hall f hf])
    have hlen : db.length ≤ done.length := by
      have h2 := hinv.count_eq
      rw [hcount] at h2
      by_cases hdm : done.length ≤ db.length
      · rw [Nat.min_eq_left hdm] at h2; omega
      · omega
    refine ⟨⟨hinv.passes_false, hinv.unclaimed_unassigned, ?_, hinv.claimed_assigned,
      hinv.owner_unique, ?_⟩, rfl⟩
    · intro f hf o2 ho2
      have h3 := hinv.assigned_claimed f hf o2 ho2
      exact ⟨h3.1, List.mem_append_left _ h3.2⟩
    · rw [hcount]
      simp only [List.length_append, List.length_cons, List.length_nil]
      omega
  | some f =>
    have hmem0 := selectMin_mem hsel
    have hfl := List.mem_filter.1 hmem0
    have hfdb := hfl.1
    have hfip : f.in_progress = false := by simpa using hfl.2
    have hfass : f.assigned_agent_id = none := hinv.unclaimed_unassigned f hfdb hfip
    have hfp : f.passes = false := hinv.passes_false f hfdb
    have hcnt : countClaimed (updateById db
        { f with in_progress := true, assigned_agent_id := some o })
        = countClaimed db + 1 :=
      countClaimed_updateById hids hfdb hfip rfl rfl
    have hclt : countClaimed db < db.length := by
      unfold countClaimed
      have hle := List.countP_le_length (fun f => f.in_progress) (l := db)
      rcases Nat.eq_or_lt_of_le hle with heq | hlt
      · exfalso
        have := (List.countP_eq_length.1 heq) f hfdb
        rw [hfip] at this
        simp at this
      · exact hlt
    have hdlt : done.length < db.length ∧ countClaimed db = done.length := by
      have h2 := hinv.count_eq
      by_cases hdm : done.length ≤ db.length
      · rw [Nat.min_eq_left hdm] at h2
        omega
      · rw [Nat.min_eq_right (by omega)] at h2
        omega
    refine ⟨⟨?_, ?_, ?_, ?_, ?_, ?_⟩, updateById_map_id db _⟩
    · intro g hg
      rcases mem_updateById_cases hg with hge | hge
      · rw [hge]; exact hfp
      · exact hinv.passes_false g hge.1
    · intro g hg hgip
      rcases mem_updateById_cases hg with hge | hge
      · rw [hge] at hgip; cases hgip
      · exact hinv.unclaimed_unassigned g hge.1 hgip
    · intro g hg o2 ho2
      rcases mem_updateById_cases hg with hge | hge
      · rw [hge] at ho2 ⊢
        simp only [Option.some.injEq] at ho2
        subst ho2
        exact ⟨rfl, List.mem_append_right _ (List.mem_singleton.2 rfl)⟩
      · have h3 := hinv.assigned_claimed g hge.1 o2 ho2
        exact ⟨h3.1, List.mem_append_left _ h3.2⟩
    · intro g hg hgip
      rcases mem_updateById_cases hg with hge | hge
      · rw [hge]; simp
      · exact hinv.claimed_assigned g hge.1 hgip
    · intro g1 hg1 g2 hg2 o2 ho21 ho22
      rcases mem_updateById_cases hg1 with hge1 | hge1 <;>
        rcases mem_updateById_cases hg2 with hge2 | hge2
      · rw [hge1, hge2]
      · exfalso
        rw [hge1] at ho21
        simp only [Option.some.injEq] at ho21
        rw [← ho21] at ho22
        exact ho (hinv.assigned_claimed g2 hge2.1 o ho22).2
      · exfalso
        rw [hge2] at ho22
        simp only [Option.some.injEq] at ho22
        rw [← ho22] at ho21
        exact ho (hinv.assigned_claimed g1 hge1.1 o ho21).2
      · exact hinv.owner_unique g1 hge1.1 g2 hge2.1 o2 ho21 ho22
    · rw [hcnt, updateById_length]
      simp only [List.length_append, List.length_cons, List.length_nil]
      rw [hdlt.2]
      omega

theorem runClaims_inv (owners : List String) :
    ∀ (done : List String) (db : List Feature),
      (done ++ owners).Nodup → ClaimInv done db →
      (db.map (fun f => f.id)).Nodup →
      ClaimInv (done ++ owners) (runClaims owners db) ∧
      (runClaims owners db).map (fun f => f.id) = db.map (fun f => f.id) := by
  induction owners with
  | nil =>
    intro done db hnd hinv hids
    simp only [runClaims, List.foldl_nil, List.append_nil]
    exact ⟨hinv, trivial⟩
  | cons o rest ih =>
    intro done db hnd hinv hids
    have hstep : runClaims (o :: rest) db
        = runClaims rest (feature_claim_next o db).2 := rfl
    have ho : o ∉ done := by
      have h2 := (List.nodup_append.1 hnd).2.2
      intro hmem
      exact h2 hmem (List.mem_cons_self o rest)
    obtain ⟨hinv2, hids2eq⟩ := claimInv_step hinv ho hids
    have hids2 : ((feature_claim_next o db).2.map (fun f => f.id)).Nodup := by
      rw [hids2eq]; exact hids
    have hnd2 : ((done ++ [o]) ++ rest).Nodup := by
      rw [List.append_assoc]
      simpa using hnd
    obtain ⟨hinv3, hid3⟩ := ih (done ++ [o]) (feature_claim_next o db).2 hnd2 hinv2 hids2
    constructor
    · rw [hstep, show done ++ o :: rest = (done ++ [o]) ++ rest by simp]
      exact hinv3
    · rw [hstep, hid3, hids2eq]

/-- C1: for any execution of N concurrent `feature_claim_next` calls with
pairwise-distinct owner identifiers against a store of M pristine
(incomplete, unclaimed, unassigned) items with distinct ids — each call one
atomic row-locked transaction, so a concurrent execution is an arbitrary
sequential order of the calls — afterwards exactly min(N, M) rows are
claimed, each owner holds at most one row, and at every instant (after any
prefix of the interleaving) each item id has a single owner value. -/
theorem claim_next_concurrent_spec (owners : List String) (db0 : List Feature)
    (hown : owners.Nodup) (hids : (db0.map (fun f => f.id)).Nodup)
    (hpris : ∀ f ∈ db0, pristineF f)
    (hN : 0 < owners.length) (hM : 0 < db0.length) :
    countClaimed (runClaims owners db0) = min owners.length db0.length ∧
    (∀ f ∈ runClaims owners db0, ∀ g ∈ runClaims owners db0, ∀ o : String,
       f.assigned_agent_id = some o → g.assigned_agent_id = some o → f = g) ∧
    (∀ pre : List String, pre <+: owners →
       ∀ f ∈ runClaims pre db0, ∀ g ∈ runClaims pre db0,
         f.id = g.id → f.assigned_agent_id = g.assigned_agent_id) := by
  have hmain := runClaims_inv owners [] db0 (by simpa using hown)
    (claimInv_init hpris) hids
  have hlen : (runClaims owners db0).length = db0.length := by
    have h2 := congrArg List.length hmain.2
    simpa using h2
  refine ⟨?_, ?_, ?_⟩
  · have h2 := hmain.1.count_eq
    simpa [hlen] using h2
  · intro f hf g hg o hfo hgo
    exact hmain.1.owner_unique f hf g hg o hfo hgo
  · intro pre hpre f hf g hg hid
    have hpn : pre.Nodup := hown.sublist hpre.sublist
    have hm2 := runClaims_inv pre [] db0 (by simpa using hpn)
      (claimInv_init hpris) hids
    have hidsp : ((runClaims pre db0).map (fun f2 => f2.id)).Nodup := by
      rw [hm2.2]; exact hids
    rw [nodup_ids_inj hidsp f hf g hg hid]

/-- C1 witness: two owners, three pristine items. -/
theorem claim_next_concurrent_spec_w :
    countClaimed (runClaims ["a", "b"] [exF1, exF2, exF3])
      = min (["a", "b"] : List String).length ([exF1, exF2, exF3]).length ∧
    (∀ f ∈ runClaims ["a", "b"] [exF1, exF2, exF3],
       ∀ g ∈ runClaims ["a", "b"] [exF1, exF2, exF3], ∀ o : String,
       f.assigned_agent_id = some o → g.assigned_agent_id = some o → f = g) ∧
    (∀ pre : List String, pre <+: ["a", "b"] →
       ∀ f ∈ runClaims pre [exF1, exF2, exF3],
         ∀ g ∈ runClaims pre [exF1, exF2, exF3],
         f.id = g.id → f.assigned_agent_id = g.assigned_agent_id) :=
  claim_next_concurrent_spec ["a", "b"] [exF1, exF2, exF3]
    (by decide) (by decide) (by decide) (by decide) (by decide)

/-!
Part 5: round-trip of the line protocol codec (C8, C9).
-/

theorem readQuoted_cons (ch : Char) (tl : List Char) :
    readQuoted (ch :: tl) =
      (if ch = '"' then some ([], tl)
       else if ch = '\\' then
         (match tl with
          | [] => none
          | esc :: tl2 =>
            (match unescapeChar esc with
             | none => none
             | some u => (readQuoted tl2).map (fun p => (u :: p.1, p.2))))
       else (readQuoted tl).map (fun p => (ch :: p.1, p.2))) := by
  cases tl <;> rfl

theorem readQuoted_escape (s rest : List Char) :
    readQuoted (escapeStr s ++ '"' :: rest) = some (s, rest) := by
  induction s with
  | nil =>
    show readQuoted ('"' :: rest) = some ([], rest)
    rw [readQuoted_cons]
    simp
  | cons c t ih =>
    show readQuoted ((escapeChar c ++ escapeStr t) ++ '"' :: rest)
      = some (c :: t, rest)
    rw [List.append_assoc]
    by_cases h1 : c = '"'
    · subst h1
      rw [show escapeChar '"' = ['\\', '"'] from rfl]
      rw [List.cons_append, List.cons_append, readQuoted_cons]
      simp [unescapeChar, ih]
    · by_cases h2 : c = '\\'
      · subst h2
        rw [show escapeChar '\\' = ['\\', '\\'] from rfl]
        rw [List.cons_append, List.cons_append, readQuoted_cons]
        simp [unescapeChar, ih]
      · by_cases h3 : c = '\n'
        · subst h3
          rw [show escapeChar '\n' = ['\\', 'n'] from rfl]
          rw [List.cons_append, List.cons_append, readQuoted_cons]
          simp [unescapeChar, ih]
        · by_cases h4 : c = '\t'
          · subst h4
            rw [show escapeChar '\t' = ['\\', 't'] from rfl]
            rw [List.cons_append, List.cons_append, readQuoted_cons]
            simp [unescapeChar, ih]
          · by_cases h5 : c = '\r'
            · subst h5
              rw [show escapeChar '\r' = ['\\', 'r'] from rfl]
              rw [List.cons_append, List.cons_append, readQuoted_cons]
              simp [unescapeChar, ih]
            · rw [show escapeChar c = [c] from by
                simp [escapeChar, h1, h2, h3, h4, h5]]
              rw [List.singleton_append, readQuoted_cons]
              rw [if_neg h1, if_neg h2, ih]
              rfl

theorem charToDigit_digitToChar {d : Nat} (h : d < 10) :
    charToDigit (digitToChar d) = d := by
  interval_cases d <;> decide

theorem digitToChar_isDigit {d : Nat} (h : d < 10) :
    (digitToChar d).isDigit = true := by
  interval_cases d <;> decide

theorem serNat_all_digits (n : Nat) : ∀ c ∈ serNat n, c.isDigit = true := by
  unfold serNat
  by_cases h : n = 0
  · simp [h]
  · simp only [h, if_false]
    intro c hc
    obtain ⟨d, hd, hde⟩ := List.mem_map.1 hc
    have hdlt : d < 10 :=
      Nat.digits_lt_base (by norm_num) (List.mem_reverse.1 hd)
    rw [← hde]
    exact digitToChar_isDigit hdlt

theorem serNat_ne_nil (n : Nat) : serNat n ≠ [] := by
  unfold serNat
  by_cases h : n = 0
  · simp [h]
  · simp only [h, if_false]
    simp only [ne_eq, List.map_eq_nil_iff, List.reverse_eq_nil_iff]
    exact Nat.digits_ne_nil_iff_ne_zero.2 h

theorem digitsVal_append_digit (ds : List Char) (c : Char) :
    digitsVal (ds ++ [c]) = 10 * digitsVal ds + charToDigit c := by
  unfold digitsVal
  rw [List.foldl_append]
  rfl

theorem digitsVal_serNat (n : Nat) : digitsVal (serNat n) = n := by
  have key : ∀ l : List Nat, (∀ d ∈ l, d < 10) →
      digitsVal (l.reverse.map digitToChar) = Nat.ofDigits 10 l := by
    intro l
    induction l with
    | nil => intro _; simp [digitsVal, Nat.ofDigits]
    | cons d t ih =>
      intro hl
      rw [List.reverse_cons, List.map_append]
      simp only [List.map_cons, List.map_nil]
      rw [digitsVal_append_digit]
      rw [ih (fun x hx => hl x (List.mem_cons_of_mem d hx))]
      rw [charToDigit_digitToChar (hl d (List.mem_cons_self d t))]
      rw [Nat.ofDigits_cons]
      ring
  unfold serNat
  by_cases h : n = 0
  · simp [h]
    decide
  · simp only [h, if_false]
    rw [key (Nat.digits 10 n) (fun d hd => Nat.digits_lt_base (by norm_num) hd)]
    exact Nat.ofDigits_digits 10 n

theorem takeWhile_append_all {p : Char → Bool} (xs ys : List Char)
    (hx : ∀ c ∈ xs, p c = true) (hy : ys.takeWhile p = []) :
    (xs ++ ys).takeWhile p = xs := by
  induction xs with
  | nil => simpa using hy
  | cons c t ih =>
    simp only [List.cons_append, List.takeWhile_cons,
      hx c (List.mem_cons_self c t), if_true]
    rw [ih (fun x hx2 => hx x (List.mem_cons_of_mem c hx2))]

theorem dropWhile_append_all {p : Char → Bool} (xs ys : List Char)
    (hx : ∀ c ∈ xs, p c = true) (hy : ys.dropWhile p = ys) :
    (xs ++ ys).dropWhile p = ys := by
  induction xs with
  | nil => simpa using hy
  | cons c t ih =>
    simp only [List.cons_append, List.dropWhile_cons,
      hx c (List.mem_cons_self c t), if_true]
    exact ih (fun x hx2 => hx x (List.mem_cons_of_mem c hx2))

theorem noLeadingDigit_takeWhile {ys : List Char} (h : noLeadingDigit ys) :
    ys.takeWhile (fun c => c.isDigit) = [] := by
  cases ys with
  | nil => rfl
  | cons c t =>
    unfold noLeadingDigit at h
    simp [List.takeWhile_cons, h]

theorem noLeadingDigit_dropWhile {ys : List Char} (h : noLeadingDigit ys) :
    ys.dropWhile (fun c => c.isDigit) = ys := by
  cases ys with
  | nil => rfl
  | cons c t =>
    unfold noLeadingDigit at h
    simp [List.dropWhile_cons, h]

theorem readNat_serNat (n : Nat) (rest : List Char)
    (hrest : noLeadingDigit rest) :
    readNat (serNat n ++ rest) = some (n, rest) := by
  unfold readNat
  rw [takeWhile_append_all (serNat n) rest (serNat_all_digits n)
    (noLeadingDigit_takeWhile hrest)]
  rw [dropWhile_append_all (serNat n) rest (serNat_all_digits n)
    (noLeadingDigit_dropWhile hrest)]
  have hie : (serNat n).isEmpty = false := by
    cases hsn : serNat n with
    | nil => exact absurd hsn (serNat_ne_nil n)
    | cons c t => rfl
  show (if (serNat n).isEmpty = true then none
        else some (digitsVal (serNat n), rest)) = some (n, rest)
  rw [hie]
  simp only [Bool.false_eq_true, if_false]
  rw [digitsVal_serNat]

theorem rv_succ_cons (fuel : Nat) (ch : Char) (tl : List Char) :
    readVal (fuel + 1) (ch :: tl) =
      (if ch.isDigit then
        (readNat (ch :: tl)).map (fun p => (JVal.num (p.1 : Int), p.2))
      else if ch = '-' then
        (readNat tl).map (fun p => (JVal.num (-(p.1 : Int)), p.2))
      else if ch = '"' then
        (readQuoted tl).map (fun p => (JVal.str (String.mk p.1), p.2))
      else if ch = '[' then
        if tl.head? = some ']' then some (JVal.arr [], tl.tail)
        else (readElts fuel tl).map (fun p => (JVal.arr p.1, p.2))
      else if ch = '{' then
        if tl.head? = some '}' then some (JVal.obj [], tl.tail)
        else (readPairs fuel tl).map (fun p => (JVal.obj p.1, p.2))
      else if ch = 'n' then
        (dropLit litNull.tail tl).map (fun u => (JVal.null, u))
      else if ch = 't' then
        (dropLit litTrue.tail tl).map (fun u => (JVal.bool true, u))
      else if ch = 'f' then
        (dropLit litFalse.tail tl).map (fun u => (JVal.bool false, u))
      else none) := rfl

theorem re_succ (k : Nat) (cs : List Char) :
    readElts (k + 1) cs =
      (match readVal k cs with
       | none => none
       | some (v, u1) =>
         (match u1 with
          | ']' :: u2 => some ([v], u2)
          | ',' :: u2 => (readElts k u2).map (fun p => (v :: p.1, p.2))
          | _ => none)) := rfl

theorem rp_succ_cons (k : Nat) (ch : Char) (body : List Char) :
    readPairs (k + 1) (ch :: body) =
      (if ch = '"' then
        match readQuoted body with
        | none => none
        | some (kcs, u1) =>
          match u1 with
          | ':' :: u2 =>
            match readVal k u2 with
            | none => none
            | some (v, u3) =>
              match u3 with
              | '}' :: u4 => some ([(String.mk kcs, v)], u4)
              | ',' :: u4 =>
                (readPairs k u4).map (fun p => ((String.mk kcs, v) :: p.1, p.2))
              | _ => none
          | _ => none
      else none) := rfl

theorem numGuard_cons (v : JVal) (c : Char) (l : List Char)
    (h : c.isDigit = false) : numGuard v (c :: l) := by
  cases v <;> simp [numGuard, noLeadingDigit, h]

theorem readVal_serInt (fuel : Nat) (n : Int) (rest : List Char)
    (hrest : noLeadingDigit rest) :
    readVal (fuel + 1) (serInt n ++ rest) = some (.num n, rest) := by
  unfold serInt
  by_cases h : n < 0
  · rw [if_pos h, List.cons_append, rv_succ_cons]
    rw [if_neg (by decide : ¬(('-' : Char).isDigit = true))]
    rw [if_pos rfl]
    rw [readNat_serNat n.natAbs rest hrest]
    have h2 : -((n.natAbs : Nat) : Int) = n := by omega
    show some (JVal.num (-((n.natAbs : Nat) : Int)), rest) = some (JVal.num n, rest)
    rw [h2]
  · rw [if_neg h]
    obtain ⟨c, t, hct⟩ := List.exists_cons_of_ne_nil (serNat_ne_nil n.toNat)
    have hcd : c.isDigit = true := by
      refine serNat_all_digits n.toNat c ?_
      rw [hct]
      exact List.mem_cons_self c t
    rw [hct, List.cons_append, rv_succ_cons, if_pos hcd]
    have hpn : readNat (c :: (t ++ rest)) = some (n.toNat, rest) := by
      rw [show c :: (t ++ rest) = (c :: t) ++ rest from rfl, ← hct]
      exact readNat_serNat n.toNat rest hrest
    rw [hpn]
    have h2 : ((n.toNat : Nat) : Int) = n := Int.toNat_of_nonneg (by omega)
    show some (JVal.num ((n.toNat : Nat) : Int), rest) = some (JVal.num n, rest)
    rw [h2]

theorem serVal_head_cases (v : JVal) :
    ∃ c t, serVal v = c :: t ∧ c ≠ ']' ∧ c ≠ '}' := by
  cases v with
  | null => exact ⟨'n', _, rfl, by decide, by decide⟩
  | bool b =>
    cases b
    · exact ⟨'f', _, rfl, by decide, by decide⟩
    · exact ⟨'t', _, rfl, by decide, by decide⟩
  | num n =>
    show ∃ c t, serInt n = c :: t ∧ c ≠ ']' ∧ c ≠ '}'
    unfold serInt
    by_cases h : n < 0
    · rw [if_pos h]
      exact ⟨'-', _, rfl, by decide, by decide⟩
    · rw [if_neg h]
      obtain ⟨c, t, hct⟩ := List.exists_cons_of_ne_nil (serNat_ne_nil n.toNat)
      have hcd : c.isDigit = true := by
        refine serNat_all_digits n.toNat c ?_
        rw [hct]
        exact List.mem_cons_self c t
      refine ⟨c, t, hct, ?_, ?_⟩
      · intro he
        rw [he] at hcd
        exact absurd hcd (by decide)
      · intro he
        rw [he] at hcd
        exact absurd hcd (by decide)
  | str s => exact ⟨'"', _, rfl, by decide, by decide⟩
  | arr xs =>
    cases xs
    · exact ⟨'[', _, rfl, by decide, by decide⟩
    · exact ⟨'[', _, rfl, by decide, by decide⟩
  | obj fs =>
    cases fs
    · exact ⟨'{', _, rfl, by decide, by decide⟩
    · exact ⟨'{', _, rfl, by decide, by decide⟩

theorem serItems_head (x : JVal) (xs : List JVal) :
    ∃ c t, serItems (x :: xs) = c :: t ∧ c ≠ ']' ∧ c ≠ '}' := by
  obtain ⟨c, t, hser, h1, h2⟩ := serVal_head_cases x
  cases xs with
  | nil => exact ⟨c, t ++ [']'], by simp [serItems, hser], h1, h2⟩
  | cons y ys =>
    exact ⟨c, t ++ ',' :: serItems (y :: ys), by simp [serItems, hser], h1, h2⟩

theorem serFields_head (kv : String × JVal) (fs : List (String × JVal)) :
    ∃ t, serFields (kv :: fs) = '"' :: t := by
  obtain ⟨key, v⟩ := kv
  cases fs with
  | nil => exact ⟨_, rfl⟩
  | cons kv2 fs2 => exact ⟨_, rfl⟩

theorem serVal_length_pos (v : JVal) : 0 < (serVal v).length := by
  obtain ⟨c, t, h, _, _⟩ := serVal_head_cases v
  simp [h]

theorem serItems_length_pos (x : JVal) (xs : List JVal) :
    0 < (serItems (x :: xs)).length := by
  obtain ⟨c, t, h, _, _⟩ := serItems_head x xs
  simp [h]

theorem serFields_length_pos (kv : String × JVal) (fs : List (String × JVal)) :
    0 < (serFields (kv :: fs)).length := by
  obtain ⟨t, h⟩ := serFields_head kv fs
  simp [h]

theorem parse_ser_all : ∀ fuel : Nat,
    (∀ (v : JVal) (rest : List Char), (serVal v).length ≤ fuel →
       numGuard v rest →
       readVal fuel (serVal v ++ rest) = some (v, rest)) ∧
    (∀ (x : JVal) (xs : List JVal) (rest : List Char),
       (serItems (x :: xs)).length ≤ fuel →
       readElts fuel (serItems (x :: xs) ++ rest) = some (x :: xs, rest)) ∧
    (∀ (kv : String × JVal) (fs : List (String × JVal)) (rest : List Char),
       (serFields (kv :: fs)).length ≤ fuel →
       readPairs fuel (serFields (kv :: fs) ++ rest) = some (kv :: fs, rest)) := by
  intro fuel
  induction fuel with
  | zero =>
    refine ⟨fun v rest hlen _ => ?_, fun x xs rest hlen => ?_,
      fun kv fs rest hlen => ?_⟩
    · have := serVal_length_pos v; omega
    · have := serItems_length_pos x xs; omega
    · have := serFields_length_pos kv fs; omega
  | succ k ih =>
    obtain ⟨ihv, ihi, ihf⟩ := ih
    refine ⟨?_, ?_, ?_⟩
    · intro v rest hlen hguard
      cases v with
      | null => rfl
      | bool b => cases b <;> rfl
      | num n => exact readVal_serInt k n rest hguard
      | str s =>
        have heq : serVal (.str s) ++ rest
            = '"' :: (escapeStr s.data ++ '"' :: rest) := by
          show ('"' :: (escapeStr s.data ++ ['"'])) ++ rest = _
          simp
        rw [heq, rv_succ_cons]
        rw [if_neg (by decide : ¬(('"' : Char).isDigit = true)),
            if_neg (by decide : ¬(('"' : Char) = '-')), if_pos rfl]
        rw [readQuoted_escape]
        rfl
      | arr xs =>
        cases xs with
        | nil => rfl
        | cons x xs2 =>
          have heq : serVal (.arr (x :: xs2)) ++ rest
              = '[' :: (serItems (x :: xs2) ++ rest) := by
            show ('[' :: serItems (x :: xs2)) ++ rest = _
            simp
          rw [heq, rv_succ_cons]
          rw [if_neg (by decide : ¬(('[' : Char).isDigit = true)),
              if_neg (by decide : ¬(('[' : Char) = '-')),
              if_neg (by decide : ¬(('[' : Char) = '"')),
              if_pos rfl]
          obtain ⟨c, t, hhd, hc1, hc2⟩ := serItems_head x xs2
          have hne : ¬((serItems (x :: xs2) ++ rest).head? = some ']') := by
            rw [hhd, List.cons_append]
            simp [hc1]
          rw [if_neg hne]
          have hlen2 : (serItems (x :: xs2)).length ≤ k := by
            have h3 : (serVal (JVal.arr (x :: xs2))).length
                = (serItems (x :: xs2)).length + 1 := by
              show (('[' :: serItems (x :: xs2)) : List Char).length = _
              simp
            omega
          rw [ihi x xs2 rest hlen2]
          rfl
      | obj fs =>
        cases fs with
        | nil => rfl
        | cons kv fs2 =>
          have heq : serVal (.obj (kv :: fs2)) ++ rest
              = '{' :: (serFields (kv :: fs2) ++ rest) := by
            show ('{' :: serFields (kv :: fs2)) ++ rest = _
            simp
          rw [heq, rv_succ_cons]
          rw [if_neg (by decide : ¬(('{' : Char).isDigit = true)),
              if_neg (by decide : ¬(('{' : Char) = '-')),
              if_neg (by decide : ¬(('{' : Char) = '"')),
              if_neg (by decide : ¬(('{' : Char) = '[')),
              if_pos rfl]
          obtain ⟨t, hhd⟩ := serFields_head kv fs2
          have hne : ¬((serFields (kv :: fs2) ++ rest).head? = some '}') := by
            rw [hhd, List.cons_append]
            simp
          rw [if_neg hne]
          have hlen2 : (serFields (kv :: fs2)).length ≤ k := by
            have h3 : (serVal (JVal.obj (kv :: fs2))).length
                = (serFields (kv :: fs2)).length + 1 := by
              show (('{' :: serFields (kv :: fs2)) : List Char).length = _
              simp
            omega
          rw [ihf kv fs2 rest hlen2]
          rfl
    · intro x xs rest hlen
      cases xs with
      | nil =>
        have heq : serItems [x] ++ rest = serVal x ++ (']' :: rest) := by
          show (serVal x ++ [']']) ++ rest = _
          simp
        have hlv : (serVal x).length ≤ k := by
          have h3 : (serItems [x]).length = (serVal x).length + 1 := by
            show ((serVal x ++ [']']) : List Char).length = _
            simp
          omega
        rw [heq, re_succ]
        rw [ihv x (']' :: rest) hlv (numGuard_cons _ _ _ (by decide))]
        rfl
      | cons y ys =>
        have heq : serItems (x :: y :: ys) ++ rest
            = serVal x ++ (',' :: (serItems (y :: ys) ++ rest)) := by
          show (serVal x ++ ',' :: serItems (y :: ys)) ++ rest = _
          simp
        have h3 : (serItems (x :: y :: ys)).length
            = (serVal x).length + 1 + (serItems (y :: ys)).length := by
          show ((serVal x ++ ',' :: serItems (y :: ys)) : List Char).length = _
          simp [List.length_append]
          omega
        rw [heq, re_succ]
        simp only [ihv x (',' :: (serItems (y :: ys) ++ rest)) (by omega)
            (numGuard_cons _ _ _ (by decide)),
          ihi y ys rest (by omega)]
        rfl
    · intro kv fs rest hlen
      obtain ⟨key, v⟩ := kv
      cases fs with
      | nil =>
        have heq : serFields [(key, v)] ++ rest
            = '"' :: (escapeStr key.data ++ '"' ::
                (':' :: (serVal v ++ '}' :: rest))) := by
          show (('"' :: (escapeStr key.data ++ ['"']))
              ++ ':' :: (serVal v ++ ['}'])) ++ rest = _
          simp
        have h3 : (serVal v).length + 1 ≤ (serFields [(key, v)]).length := by
          show (serVal v).length + 1 ≤
            ((('"' :: (escapeStr key.data ++ ['"']))
              ++ ':' :: (serVal v ++ ['}'])) : List Char).length
          simp [List.length_append]
          omega
        rw [heq, rp_succ_cons, if_pos rfl]
        simp only [readQuoted_escape key.data
            (':' :: (serVal v ++ '}' :: rest)),
          ihv v ('}' :: rest) (by omega) (numGuard_cons _ _ _ (by decide))]
      | cons kv2 fs2 =>
        have heq : serFields ((key, v) :: kv2 :: fs2) ++ rest
            = '"' :: (escapeStr key.data ++ '"' ::
                (':' :: (serVal v ++ ',' :: (serFields (kv2 :: fs2) ++ rest)))) := by
          show (('"' :: (escapeStr key.data ++ ['"']))
              ++ ':' :: (serVal v ++ ',' :: serFields (kv2 :: fs2))) ++ rest = _
          simp
        have h3 : (serVal v).length + 1 + (serFields (kv2 :: fs2)).length + 1
            ≤ (serFields ((key, v) :: kv2 :: fs2)).length := by
          show (serVal v).length + 1 + (serFields (kv2 :: fs2)).length + 1 ≤
            ((('"' :: (escapeStr key.data ++ ['"']))
              ++ ':' :: (serVal v ++ ',' :: serFields (kv2 :: fs2))) : List Char).length
          simp [List.length_append]
          omega
        rw [heq, rp_succ_cons, if_pos rfl]
        simp only [readQuoted_escape key.data
            (':' :: (serVal v ++ ',' :: (serFields (kv2 :: fs2) ++ rest))),
          ihv v (',' :: (serFields (kv2 :: fs2) ++ rest)) (by omega)
            (numGuard_cons _ _ _ (by decide)),
          ihf kv2 fs2 rest (by omega)]
        rfl

theorem jsonParse_serVal (v : JVal) : jsonParse (serVal v) = some v := by
  have hg : numGuard v [] := by
    cases v <;> simp [numGuard, noLeadingDigit]
  have h := (parse_ser_all (serVal v).length).1 v [] (le_refl _) hg
  rw [List.append_nil] at h
  unfold jsonParse
  rw [h]

theorem serFields_ends (kv : String × JVal) (fs : List (String × JVal)) :
    ∃ l, serFields (kv :: fs) = l ++ ['}'] := by
  induction fs generalizing kv with
  | nil =>
    obtain ⟨key, v⟩ := kv
    exact ⟨serKey key ++ ':' :: serVal v, by simp [serFields]⟩
  | cons kv2 fs2 ih =>
    obtain ⟨key, v⟩ := kv
    obtain ⟨l2, hl2⟩ := ih kv2
    exact ⟨serKey key ++ ':' :: (serVal v ++ ',' :: l2),
      by simp [serFields, hl2]⟩

theorem pyStrip_id (c d : Char) (m : List Char)
    (hc : c.isWhitespace = false) (hd : d.isWhitespace = false) :
    pyStrip (c :: (m ++ [d])) = c :: (m ++ [d]) := by
  unfold pyStrip
  rw [List.dropWhile_cons]
  simp only [hc, Bool.false_eq_true, if_false]
  rw [show (c :: (m ++ [d])).reverse = d :: (m.reverse ++ [c]) by simp]
  rw [List.dropWhile_cons]
  simp only [hd, Bool.false_eq_true, if_false]
  simp

theorem pyStrip_msg (ty : String) (payload : List (String × JVal)) (ts : String) :
    pyStrip (send_message ty payload ts) = send_message ty payload ts := by
  obtain ⟨l, hl⟩ := serFields_ends ("type", JVal.str ty)
    [("payload", JVal.obj payload), ("timestamp", JVal.str ts)]
  have hline : send_message ty payload ts
      = '@' :: (('@' :: 'M' :: 'E' :: 'S' :: 'S' :: 'A' :: 'G' :: 'E' :: '@'
          :: '@' :: '{' :: l) ++ ['}']) := by
    show msgMark ++ serVal (msgObj ty payload ts) = _
    rw [show serVal (msgObj ty payload ts)
        = '{' :: serFields (("type", JVal.str ty) :: ("payload", JVal.obj payload)
            :: ("timestamp", JVal.str ts) :: []) from rfl, hl]
    simp [msgMark]
  rw [hline, pyStrip_id '@' '}' _ (by decide) (by decide)]

theorem isPrefixOf_append (p l : List Char) : p.isPrefixOf (p ++ l) = true := by
  induction p with
  | nil => simp [List.isPrefixOf]
  | cons c t ih => simp [List.isPrefixOf, ih]

theorem decode_send (ty : String) (payload : List (String × JVal)) (ts : String) :
    decodeLine (send_message ty payload ts)
      = some (JVal.str ty, JVal.obj payload) := by
  unfold decodeLine
  rw [pyStrip_msg]
  rw [show send_message ty payload ts
      = msgMark ++ serVal (msgObj ty payload ts) from rfl]
  rw [isPrefixOf_append]
  simp only [eq_self_iff_true, if_true]
  rw [List.drop_left]
  rw [jsonParse_serVal]
  rfl

/-- C8: encoding any (type, payload) pair — with any timestamp — through the
line codec and decoding the resulting line yields the original type and an
equal payload. -/
theorem codec_round_trip (ty : String) (payload : List (String × JVal))
    (ts : String) :
    decodeLine (send_message ty payload ts)
      = some (JVal.str ty, JVal.obj payload) :=
  decode_send ty payload ts

/-- C9: a nonempty line carrying the sentinel prefix that fails to decode
(invalid JSON or missing type/payload) produces zero callback invocations
and does not stop the reader loop, and a well-formed line fed afterwards is
still decoded and dispatched to its registered callbacks. -/
theorem reader_malformed_robust (cbs : String → List Nat)
    (bad : List Char) (hne : bad ≠ [])
    (hmark : msgMark.isPrefixOf (pyStrip bad) = true)
    (hdec : decodeLine bad = none)
    (lines : List (List Char)) (ty : String)
    (payload : List (String × JVal)) (ts : String) :
    listenLoop cbs (bad :: lines) = listenLoop cbs lines ∧
    listenLoop cbs (bad :: send_message ty payload ts :: lines)
      = (cbs ty).map (fun i => (i, JVal.obj payload))
        ++ listenLoop cbs lines := by
  have hb : processLine cbs bad = [] := by
    unfold processLine
    rw [hdec]
  have hs : processLine cbs (send_message ty payload ts)
      = (cbs ty).map (fun i => (i, JVal.obj payload)) := by
    unfold processLine
    rw [decode_send]
  have hsne : send_message ty payload ts ≠ [] := by
    show msgMark ++ serVal (msgObj ty payload ts) ≠ []
    simp [msgMark]
  constructor
  · show (if bad = [] then []
        else processLine cbs bad ++ listenLoop cbs lines) = _
    rw [if_neg hne, hb]
    simp
  · show (if bad = [] then []
        else processLine cbs bad
          ++ listenLoop cbs (send_message ty payload ts :: lines)) = _
    rw [if_neg hne, hb]
    show [] ++ (if send_message ty payload ts = [] then []
        else processLine cbs (send_message ty payload ts)
          ++ listenLoop cbs lines) = _
    rw [if_neg hsne, hs]
    simp

/-- C9 witness: a concrete malformed sentinel line, then a ping message. -/
theorem reader_malformed_robust_w :
    listenLoop exCbs (exBadLine :: []) = listenLoop exCbs [] ∧
    listenLoop exCbs
        (exBadLine :: send_message "ping" [("content", JVal.str "hi")] "T" :: [])
      = (exCbs "ping").map (fun i => (i, JVal.obj [("content", JVal.str "hi")]))
        ++ listenLoop exCbs [] :=
  reader_malformed_robust exCbs exBadLine (by decide) rfl rfl []
    "ping" [("content", JVal.str "hi")] "T"
